import Mathlib

/-!
Shallow embedding of the `tini` INI-file library (src/src/lib.rs) for
checking its natural-language specification.

Strings are modelled as `List Char`.  The repository's `ordered_hashmap`,
`parser` and `error` modules are not present under src/, so the ordered map,
the line parser and the parse-error record are modelled from the spec
(each such definition's doc comment says so); everything else is translated
directly from src/src/lib.rs.
-/

set_option autoImplicit false

deriving instance DecidableEq for Except

namespace Tini

abbrev Chars := List Char

/-- Whitespace test used by `trim` (covers the ASCII whitespace relevant
to INI text). -/
def isWs (c : Char) : Bool :=
  c = ' ' || c = '\t' || c = '\r' || c = '\n'

/-- Drop leading whitespace (Rust `str::trim_start`). -/
def trimL (s : Chars) : Chars := s.dropWhile isWs

/-- Drop trailing whitespace (Rust `str::trim_end`). -/
def trimR (s : Chars) : Chars := (s.reverse.dropWhile isWs).reverse

/-- Rust `str::trim`. -/
def trim (s : Chars) : Chars := trimR (trimL s)

/-- Split a char list at every occurrence of the character `sep`
(Rust `str::split(char)`); always returns a non-empty list of pieces. -/
def splitChar (sep : Char) : Chars → List Chars
  | [] => [[]]
  | c :: rest =>
    if c = sep then [] :: splitChar sep rest
    else
      match splitChar sep rest with
      | [] => [[c]]
      | p :: ps => (c :: p) :: ps

/-- Strip one trailing carriage return, as Rust `str::lines` does per line. -/
def dropCR (l : Chars) : Chars :=
  if l.getLast? = some '\r' then l.dropLast else l

/-- Rust `str::lines`: split on newline; a final trailing newline does not
produce an extra empty line; each line loses one trailing `\r`. -/
def strLines (s : Chars) : List Chars :=
  if s = [] then []
  else
    let ps := splitChar '\n' s
    (if s.getLast? = some '\n' then ps.dropLast else ps).map dropCR

/-- Modelled from the spec: the `parser` module's `Parsed` event type
(src/src/lib.rs uses `Parsed::Section`, `Parsed::Value` and ignores the
other variants; the module itself is missing from src/). -/
inductive Parsed where
  | Empty : Parsed
  | Comment : Parsed
  | Section (name : Chars) : Parsed
  | Value (key value : Chars) : Parsed
deriving DecidableEq

/-- Modelled from the spec: the per-line parse-error record
{0-based line index, message}; the `error` module is missing from src/.
The three messages of §4.2 become three constructors. -/
inductive ParseError where
  | invalidSection (line : Nat) : ParseError
  | missingSeparator (line : Nat) : ParseError
  | emptyKey (line : Nat) : ParseError
deriving DecidableEq

/-- Split at the first occurrence of `sep`, returning the parts before and
after it, or `none` when `sep` does not occur. -/
def splitAtFirst (sep : Char) : Chars → Option (Chars × Chars)
  | [] => none
  | c :: rest =>
    if c = sep then some ([], rest)
    else (splitAtFirst sep rest).map (fun p => (c :: p.1, p.2))

def isQuote (c : Char) : Bool := c = '"' || c = '\''

/-- Modelled from the spec: the raw value is trimmed; if its first and last
characters are then a matching pair of quote characters, the pair is
stripped and the interior kept verbatim. -/
def parseValueChars (raw : Chars) : Chars :=
  match trim raw with
  | [] => []
  | c :: rest =>
    if isQuote c ∧ rest.getLast? = some c then rest.dropLast
    else c :: rest

/-- Modelled from the spec: the `parser` module's `parse_line(line, index)`
(missing from src/).  Classification per §4.2: blank, comment (`;`/`#`),
`[name]` section header (trimmed interior between the brackets; unbalanced
or empty → error), otherwise `key = value` split at the first `=` (the
implementation's canonical separator), trimmed key (empty → error), value
per `parseValueChars`; a line with no separator is an error.  Only errors
carry the 0-based line index. -/
def parse_line (line : Chars) (index : Nat) : Except ParseError Parsed :=
  match trim line with
  | [] => .ok .Empty
  | c :: rest =>
    if c = ';' ∨ c = '#' then .ok .Comment
    else if c = '[' then
      if rest.getLast? = some ']' then
        match trim rest.dropLast with
        | [] => .error (.invalidSection index)
        | name => .ok (.Section name)
      else .error (.invalidSection index)
    else
      match splitAtFirst '=' (c :: rest) with
      | none => .error (.missingSeparator index)
      | some (k, v) =>
        match trim k with
        | [] => .error (.emptyKey index)
        | key => .ok (.Value key (parseValueChars v))

/-- Modelled from the spec: the `ordered_hashmap` module's
`OrderedHashMap<K,V>` (missing from src/), realized by its externally
observable contract: an association list in insertion order. -/
abbrev OMap (α : Type) := List (Chars × α)

/-- Source `OrderedHashMap::get`: first (unique) entry with the given key. -/
def omGet {α : Type} (k : Chars) : OMap α → Option α
  | [] => none
  | p :: rest => if p.1 = k then some p.2 else omGet k rest

/-- Source `OrderedHashMap::insert`: overwrite in place when the key exists,
otherwise append at the end. -/
def omInsert {α : Type} (k : Chars) (v : α) : OMap α → OMap α
  | [] => [(k, v)]
  | p :: rest => if p.1 = k then (k, v) :: rest else p :: omInsert k v rest

/-- Source `OrderedHashMap::remove`: drop the entry with the given key, keeping
the relative order of the remaining entries. -/
def omRemove {α : Type} (k : Chars) : OMap α → OMap α
  | [] => []
  | p :: rest => if p.1 = k then rest else p :: omRemove k rest

/-- Apply `f` to the value stored at `k`, if present
(`OrderedHashMap::get_mut` followed by a mutation). -/
def omAdjust {α : Type} (k : Chars) (f : α → α) : OMap α → OMap α
  | [] => []
  | p :: rest => if p.1 = k then (p.1, f p.2) :: rest else p :: omAdjust k f rest

/-- Source `type Section = OrderedHashMap<String, String>` of src/src/lib.rs. -/
abbrev Sec := OMap Chars

/-- Source `document.entry(sec).or_insert_with(Section::new).insert(k, v)`:
update the section in place when it exists, otherwise append a fresh
section holding only `(k, v)`. -/
def entryInsert (sec k v : Chars) : OMap Sec → OMap Sec
  | [] => [(sec, [(k, v)])]
  | p :: rest =>
    if p.1 = sec then (p.1, omInsert k v p.2) :: rest
    else p :: entryInsert sec k v rest

/-- The `Ini` struct of src/src/lib.rs (the `empty_section` field only
backs the empty iterator and is dropped). -/
structure Ini where
  document : OMap Sec
  last_section_name : Chars
deriving DecidableEq

/-- Source `Ini::new`. -/
def Ini.new : Ini := ⟨[], []⟩

/-- Source `Ini::section`: records the section name for later chained calls;
does not touch the document.  (`section` is a Lean keyword, hence the
trailing underscore.) -/
def Ini.section_ (ini : Ini) (name : Chars) : Ini :=
  { ini with last_section_name := name }

/-- Source `Ini::item`. -/
def Ini.item (ini : Ini) (name value : Chars) : Ini :=
  { ini with document := entryInsert ini.last_section_name name value ini.document }

/-- Source `Ini::items`: fold `item` over a list of pairs. -/
def Ini.items (ini : Ini) : List (Chars × Chars) → Ini
  | [] => ini
  | p :: rest => (ini.item p.1 p.2).items rest

/-- Source `Ini::clear`: remove the current section. -/
def Ini.clear (ini : Ini) : Ini :=
  { ini with document := omRemove ini.last_section_name ini.document }

/-- Source `Ini::erase`: remove one key from the current section, if present. -/
def Ini.erase (ini : Ini) (key : Chars) : Ini :=
  { ini with document := omAdjust ini.last_section_name (omRemove key) ini.document }

/-- Source `Ini::get_raw`. -/
def Ini.get_raw (ini : Ini) (sec key : Chars) : Option Chars :=
  (omGet sec ini.document).bind (omGet key)

/-- Source `Ini::get`, with the `T: FromStr` conversion passed explicitly as
`conv` (modelling `|x| x.parse::<T>().ok()`). -/
def Ini.get {α : Type} (conv : Chars → Option α) (ini : Ini) (sec key : Chars) : Option α :=
  (ini.get_raw sec key).bind conv

/-- Rust `collect::<Result<Vec<T>, _>>().ok()` over a mapped list:
`none` as soon as any element fails. -/
def collectOpt {α β : Type} (f : α → Option β) : List α → Option (List β)
  | [] => some []
  | a :: rest =>
    match f a with
    | none => none
    | some b => (collectOpt f rest).map (fun l => b :: l)

/-- Scanner for Rust `str::split` with a non-empty pattern: scan left to
right for non-overlapping occurrences of `sep`, cutting at each.  `fuel`
only bounds the recursion depth (one unit per consumed character); it is
initialized to the string length, which each step consumes at most. -/
def splitOnGo (sep : Chars) : Nat → Chars → List Chars
  | _, [] => [[]]
  | 0, c :: rest => [c :: rest]
  | fuel + 1, c :: rest =>
    if sep.isPrefixOf (c :: rest) then
      [] :: splitOnGo sep fuel (List.drop (sep.length - 1) rest)
    else
      match splitOnGo sep fuel rest with
      | [] => [[c]]
      | p :: ps => (c :: p) :: ps

/-- Rust `str::split(&str)`.  For a non-empty pattern, scan left to right
for non-overlapping occurrences; the degenerate empty pattern matches
around every character. -/
def splitOn (sep : Chars) (s : Chars) : List Chars :=
  if sep = [] then [] :: s.map (fun c => [c]) ++ [[]]
  else splitOnGo sep s.length s

/-- Source `Ini::get_vec_with_sep`: split the stored string on `sep`, trim each
piece, convert each, all-or-nothing. -/
def Ini.get_vec_with_sep {α : Type} (conv : Chars → Option α) (ini : Ini)
    (sec key sep : Chars) : Option (List α) :=
  (ini.get_raw sec key).bind (fun x => collectOpt (fun p => conv (trim p)) (splitOn sep x))

/-- Source `Ini::get_vec` = `get_vec_with_sep` with separator `","`. -/
def Ini.get_vec {α : Type} (conv : Chars → Option α) (ini : Ini)
    (sec key : Chars) : Option (List α) :=
  ini.get_vec_with_sep conv sec key [',']

/-- Rust `u8::from_str`: optional leading `+`, then a non-empty digit
string whose value fits in 8 bits. -/
def parseU8 (s : Chars) : Option Nat :=
  let s' := if s.head? = some '+' then s.tail else s
  if s' ≠ [] ∧ s'.all (fun c => c.isDigit) then
    let n := s'.foldl (fun acc c => 10 * acc + (c.toNat - '0'.toNat)) 0
    if n < 256 then some n else none
  else none

/-- Source `format!("[{}]", name)`. -/
def headerLine (n : Chars) : Chars := '[' :: n ++ [']']

/-- Source `format!("{} = {}", key, value)`. -/
def pairLine (k v : Chars) : Chars := k ++ ' ' :: '=' :: ' ' :: v

/-- Rust `Vec::join(sep)`. -/
def joinSep (sep : Chars) : List Chars → Chars
  | [] => []
  | [l] => l
  | l :: ls => l ++ sep ++ joinSep sep ls

/-- The `items` vector built by `impl Display for Ini`: per section a
header line, the pair lines, then an empty line. -/
def displayItems : OMap Sec → List Chars
  | [] => []
  | p :: rest =>
    (headerLine p.1 :: p.2.map (fun q => pairLine q.1 q.2) ++ [[]]) ++ displayItems rest

/-- Source `impl fmt::Display for Ini`: build the items, pop the final empty
line, join with newlines. -/
def toDisplay (ini : Ini) : Chars :=
  joinSep ['\n'] (displayItems ini.document).dropLast

/-- Source `Ini::parse`'s loop: fold `parse_line` over the enumerated lines,
aborting at the first error (the `?` operator in the source). -/
def parseLinesFrom (ini : Ini) (idx : Nat) : List Chars → Except ParseError Ini
  | [] => .ok ini
  | l :: rest =>
    match parse_line l idx with
    | .error e => .error e
    | .ok (.Section name) => parseLinesFrom (ini.section_ name) (idx + 1) rest
    | .ok (.Value k v) => parseLinesFrom (ini.item k v) (idx + 1) rest
    | .ok _ => parseLinesFrom ini (idx + 1) rest

/-- Source `Ini::parse`. -/
def Ini.parse (s : Chars) : Except ParseError Ini :=
  parseLinesFrom Ini.new 0 (strLines s)

/-- Source `Ini::from_string`. -/
def Ini.from_string (s : String) : Except ParseError Ini :=
  Ini.parse s.toList

/-- Source `Ini::section_iter`: the section_s entries in insertion order, empty
when the section is absent. -/
def Ini.section_iter (ini : Ini) (sec : Chars) : Sec :=
  (omGet sec ini.document).getD []

/-- The first character, if any, is not whitespace. -/
def headNotWs (s : Chars) : Bool :=
  match s with
  | [] => true
  | c :: _ => !isWs c

/-- The last character, if any, is not whitespace. -/
def lastNotWs (s : Chars) : Bool :=
  match s.getLast? with
  | some c => !isWs c
  | none => true

/-- Non-empty and not starting with a comment or section-header marker. -/
def startsOk : Chars → Bool
  | [] => false
  | c :: _ => !(c = ';' || c = '#' || c = '[')

/-- Not wrapped in a matching pair of quote characters. -/
def notQuoted : Chars → Bool
  | [] => true
  | c :: rest => !(isQuote c && rest.getLast? == some c)

/-- A section name that survives serialize-then-parse: non-empty,
trim-invariant, newline-free. -/
def goodName (n : Chars) : Bool :=
  !n.isEmpty && headNotWs n && lastNotWs n && !n.contains '\n'

/-- A key that survives serialize-then-parse: non-empty, trim-invariant,
newline-free, separator-free, and not starting like a comment or header. -/
def goodKey (k : Chars) : Bool :=
  startsOk k && headNotWs k && lastNotWs k && !k.contains '\n' && !k.contains '='

/-- A value that survives serialize-then-parse: trim-invariant,
newline-free, not quote-wrapped. -/
def goodValue (v : Chars) : Bool :=
  headNotWs v && lastNotWs v && !v.contains '\n' && notQuoted v

/-- A document all of whose sections and entries survive
serialize-then-parse: distinct section names, non-empty sections with
distinct keys, and `goodName`/`goodKey`/`goodValue` throughout. -/
def WFdoc (doc : OMap Sec) : Prop :=
  (doc.map Prod.fst).Nodup ∧
    ∀ p ∈ doc, goodName p.1 ∧ p.2 ≠ [] ∧ (p.2.map Prod.fst).Nodup ∧
      ∀ q ∈ p.2, goodKey q.1 ∧ goodValue q.2

instance (doc : OMap Sec) : Decidable (WFdoc doc) := by
  unfold WFdoc; infer_instance

/-- One section rendered as the spec words it: the `[name]` line followed
by the `key = value` lines, one per line. -/
def sectionBlock (n : Chars) (m : Sec) : Chars :=
  joinSep ['\n'] (headerLine n :: m.map (fun q => pairLine q.1 q.2))

/-- The canonical serialization exactly as the spec words it: the section
blocks in insertion order, separated by exactly one blank line, with no
trailing blank line.  Written from the spec's words, to be compared with
`toDisplay` (which is translated from the source). -/
def specDisplay (doc : OMap Sec) : Chars :=
  joinSep ['\n', '\n'] (doc.map (fun p => sectionBlock p.1 p.2))

end Tini

namespace Tini

/-! ### Helper lemmas about the ordered map -/

theorem omInsert_omInsert {α : Type} (k : Chars) (v1 v2 : α) (m : OMap α) :
    omInsert k v2 (omInsert k v1 m) = omInsert k v2 m := by
  induction m with
  | nil => simp [omInsert]
  | cons p rest ih =>
    by_cases h : p.1 = k
    · simp [omInsert, h]
    · simp [omInsert, h, ih]

theorem omGet_omInsert_self {α : Type} (k : Chars) (v : α) (m : OMap α) :
    omGet k (omInsert k v m) = some v := by
  induction m with
  | nil => simp [omInsert, omGet]
  | cons p rest ih =>
    by_cases h : p.1 = k
    · simp [omInsert, h, omGet]
    · simp [omInsert, h, omGet, ih]

theorem countP_eq_zero_of_not_mem_keys {α : Type} (k : Chars) (m : OMap α)
    (h : k ∉ m.map Prod.fst) :
    m.countP (fun p => decide (p.1 = k)) = 0 := by
  induction m with
  | nil => rfl
  | cons p rest ih =>
    simp only [List.map_cons, List.mem_cons] at h
    push_neg at h
    rw [List.countP_cons]
    simp only [decide_eq_true_eq]
    rw [if_neg (by exact fun hc => h.1 hc.symm)]
    rw [Nat.add_zero]
    exact ih h.2

theorem countP_omInsert {α : Type} (k : Chars) (v : α) (m : OMap α)
    (h : (m.map Prod.fst).Nodup) :
    (omInsert k v m).countP (fun p => decide (p.1 = k)) = 1 := by
  induction m with
  | nil =>
    show List.countP (fun p => decide (p.1 = k)) [(k, v)] = 1
    rw [List.countP_cons, List.countP_nil]
    simp
  | cons p rest ih =>
    simp only [List.map_cons, List.nodup_cons] at h
    by_cases hk : p.1 = k
    · simp only [omInsert, if_pos hk]
      rw [List.countP_cons, countP_eq_zero_of_not_mem_keys k rest (hk ▸ h.1)]
      simp
    · simp only [omInsert, if_neg hk]
      rw [List.countP_cons]
      simp only [decide_eq_true_eq]
      rw [if_neg hk, ih h.2]

theorem entryInsert_entryInsert (sec k : Chars) (v1 v2 : Chars) (doc : OMap Sec) :
    entryInsert sec k v2 (entryInsert sec k v1 doc) = entryInsert sec k v2 doc := by
  induction doc with
  | nil => simp [entryInsert, omInsert]
  | cons p rest ih =>
    by_cases h : p.1 = sec
    · simp [entryInsert, h, omInsert_omInsert]
    · simp [entryInsert, h, ih]

theorem omGet_entryInsert_self (sec k v : Chars) (doc : OMap Sec) :
    omGet sec (entryInsert sec k v doc) =
      some (omInsert k v ((omGet sec doc).getD [])) := by
  induction doc with
  | nil => simp [entryInsert, omGet, omInsert]
  | cons p rest ih =>
    by_cases h : p.1 = sec
    · simp [entryInsert, h, omGet]
    · simp [entryInsert, h, omGet, ih]

theorem section_iter_item (d : Ini) (k v : Chars) :
    (d.item k v).section_iter d.last_section_name =
      omInsert k v (d.section_iter d.last_section_name) := by
  simp [Ini.item, Ini.section_iter, omGet_entryInsert_self]

end Tini

namespace Tini

/-- C4: section iteration order is insertion order, not lexical order:
parsing `"[a]\nc = 1\nb = 2\na = 3"` and iterating section `a` yields
exactly `("c","1"), ("b","2"), ("a","3")` in that order. -/
theorem c4_insertion_order :
    (Ini.from_string "[a]\nc = 1\nb = 2\na = 3").toOption.map
        (fun i => i.section_iter "a".toList) =
      some [("c".toList, "1".toList), ("b".toList, "2".toList),
        ("a".toList, "3".toList)] := by
  decide

/-- C6: a duplicate section header re-opens the existing section: parsing
`"[one]\na=1\n[two]\nb=2\n[one]\nc=3"` yields section `one` containing
both `a=1` and `c=3` (the new key appended to the existing section) and
section `two` containing `b=2`, with the section order preserved. -/
theorem c6_duplicate_section_reopens :
    (Ini.from_string "[one]\na=1\n[two]\nb=2\n[one]\nc=3").toOption.map
        (fun i => (i.document.map Prod.fst, i.section_iter "one".toList,
          i.section_iter "two".toList)) =
      some (["one".toList, "two".toList],
        [("a".toList, "1".toList), ("c".toList, "3".toList)],
        [("b".toList, "2".toList)]) := by
  decide

/-- C10: `section` alone never modifies the document's contents — it only
records the current-section name; in particular `Ini::new().section(s)`
serializes to the empty string and creates no section named `s`. -/
theorem c10_section_is_pure (d : Ini) (s : Chars) :
    (d.section_ s).document = d.document
    ∧ toDisplay (Ini.new.section_ s) = []
    ∧ omGet s (Ini.new.section_ s).document = none :=
  ⟨rfl, rfl, rfl⟩

/-- C5: calling `item` twice with the same key in the same section leaves
the document exactly as a single `item` call with the last value would:
one entry for the key, holding the last value, at the position of the
first insertion (the double insert equals the single insert, the lookup
returns the last value, and the key occurs exactly once). -/
theorem c5_update_in_place (d : Ini) (k v1 v2 : Chars)
    (h : ((d.section_iter d.last_section_name).map Prod.fst).Nodup) :
    (d.item k v1).item k v2 = d.item k v2
    ∧ omGet k (((d.item k v1).item k v2).section_iter d.last_section_name) = some v2
    ∧ (((d.item k v1).item k v2).section_iter d.last_section_name).countP
        (fun p => decide (p.1 = k)) = 1 := by
  have heq : (d.item k v1).item k v2 = d.item k v2 := by
    show ({ d with document := _ } : Ini) = { d with document := _ }
    simp only [Ini.item]
    rw [entryInsert_entryInsert]
  refine ⟨heq, ?_, ?_⟩
  · rw [heq]
    rw [section_iter_item d k v2]
    exact omGet_omInsert_self k v2 _
  · rw [heq]
    rw [section_iter_item d k v2]
    exact countP_omInsert k v2 _ h

/-- Witness for C5 at the spec's scenario `item("a","3.1416").item("a","1")`. -/
theorem c5_update_in_place_witness :
    (Ini.new.item "a".toList "3.1416".toList).item "a".toList "1".toList
        = Ini.new.item "a".toList "1".toList
    ∧ omGet "a".toList
        (((Ini.new.item "a".toList "3.1416".toList).item "a".toList
          "1".toList).section_iter Ini.new.last_section_name) = some "1".toList
    ∧ ((((Ini.new.item "a".toList "3.1416".toList).item "a".toList
          "1".toList).section_iter Ini.new.last_section_name)).countP
        (fun p => decide (p.1 = "a".toList)) = 1 :=
  c5_update_in_place Ini.new "a".toList "3.1416".toList "1".toList (by decide)

/-- C9: `get` returns `none` whenever the section is absent, the key is
absent from the section, or the stored string fails to convert — the
three cases collapse to the same `none`. -/
theorem c9_get_absent_or_unparsable {α : Type} (conv : Chars → Option α)
    (ini : Ini) (sec key : Chars) :
    (omGet sec ini.document = none → Ini.get conv ini sec key = none)
    ∧ (∀ m, omGet sec ini.document = some m → omGet key m = none →
        Ini.get conv ini sec key = none)
    ∧ (∀ s, ini.get_raw sec key = some s → conv s = none →
        Ini.get conv ini sec key = none) := by
  refine ⟨?_, ?_, ?_⟩
  · intro h
    simp [Ini.get, Ini.get_raw, h]
  · intro m hm hk
    simp [Ini.get, Ini.get_raw, hm, hk]
  · intro s hs hc
    simp [Ini.get, hs, hc]

/-- Witness for C9: all three `none` cases at concrete inputs, with the
`u8` conversion. -/
theorem c9_get_absent_or_unparsable_witness :
    Ini.get parseU8 (Ini.new.item "a".toList "xx".toList) "zz".toList "a".toList = none
    ∧ Ini.get parseU8 (Ini.new.item "a".toList "xx".toList) [] "b".toList = none
    ∧ Ini.get parseU8 (Ini.new.item "a".toList "xx".toList) [] "a".toList = none :=
  ⟨(c9_get_absent_or_unparsable parseU8 (Ini.new.item "a".toList "xx".toList)
      "zz".toList "a".toList).1 (by decide),
    (c9_get_absent_or_unparsable parseU8 (Ini.new.item "a".toList "xx".toList)
      [] "b".toList).2.1 [("a".toList, "xx".toList)] (by decide) (by decide),
    (c9_get_absent_or_unparsable parseU8 (Ini.new.item "a".toList "xx".toList)
      [] "a".toList).2.2 "xx".toList (by decide) (by decide)⟩

end Tini

namespace Tini

/-! ### C8: all-or-nothing vector conversion -/

theorem collectOpt_eq_none_iff {α β : Type} (f : α → Option β) (l : List α) :
    collectOpt f l = none ↔ ∃ a ∈ l, f a = none := by
  induction l with
  | nil =>
    constructor
    · intro h; exact Option.noConfusion h
    · rintro ⟨a, ha, _⟩; cases ha
  | cons a rest ih =>
    have hunfold : collectOpt f (a :: rest)
        = match f a with
          | none => none
          | some b => (collectOpt f rest).map (fun l => b :: l) := rfl
    cases hfa : f a with
    | none =>
      have hnone : collectOpt f (a :: rest) = none := by rw [hunfold, hfa]
      rw [hnone]
      constructor
      · intro _; exact ⟨a, List.mem_cons_self a rest, hfa⟩
      · intro _; rfl
    | some b =>
      have hsome : collectOpt f (a :: rest)
          = (collectOpt f rest).map (fun l => b :: l) := by rw [hunfold, hfa]
      rw [hsome]
      cases hrest : collectOpt f rest with
      | none =>
        constructor
        · intro _
          rcases ih.mp hrest with ⟨x, hx, hfx⟩
          exact ⟨x, List.mem_cons_of_mem a hx, hfx⟩
        · intro _; rfl
      | some l' =>
        constructor
        · intro hc; exact Option.noConfusion hc
        · rintro ⟨x, hx, hfx⟩
          rcases List.mem_cons.mp hx with h1 | h2
          · rw [h1] at hfx; rw [hfa] at hfx; cases hfx
          · rw [ih.mpr ⟨x, h2, hfx⟩] at hrest; cases hrest

/-- C8: `get_vec_with_sep` splits the stored string on the separator,
trims each piece, converts each, and is all-or-nothing: when the raw
value is present it equals the collected conversion of the trimmed
pieces, and it is `none` exactly when some piece fails to convert. -/
theorem c8_get_vec_all_or_nothing {α : Type} (conv : Chars → Option α)
    (ini : Ini) (sec key sep s : Chars)
    (h : ini.get_raw sec key = some s) :
    ini.get_vec_with_sep conv sec key sep
        = collectOpt (fun p => conv (trim p)) (splitOn sep s)
    ∧ (ini.get_vec_with_sep conv sec key sep = none ↔
        ∃ p ∈ splitOn sep s, conv (trim p) = none) := by
  have h1 : ini.get_vec_with_sep conv sec key sep
      = collectOpt (fun p => conv (trim p)) (splitOn sep s) := by
    simp [Ini.get_vec_with_sep, h]
  exact ⟨h1, by rw [h1]; exact collectOpt_eq_none_iff _ _⟩

/-- Witness for C8: `get_vec::<u8>` on a stored `"1, 2, --, 4"` is `none`
(the piece `--` fails), and on `"1, 2, 3, 4"` it is `some [1,2,3,4]`. -/
theorem c8_get_vec_all_or_nothing_witness :
    (Ini.new.section_ "s".toList |>.item "list".toList
        "1, 2, --, 4".toList).get_vec parseU8 "s".toList "list".toList = none
    ∧ (Ini.new.section_ "s".toList |>.item "list".toList
        "1, 2, 3, 4".toList).get_vec parseU8 "s".toList "list".toList
      = some [1, 2, 3, 4] :=
  ⟨(c8_get_vec_all_or_nothing parseU8
      (Ini.new.section_ "s".toList |>.item "list".toList "1, 2, --, 4".toList)
      "s".toList "list".toList [','] "1, 2, --, 4".toList (by decide)).2.mpr
      ⟨" --".toList, by decide, by decide⟩,
    by decide⟩

/-! ### C1: a parse error aborts the parse (fail-fast) -/

/-- C1 counterexample: on `"[a]\nno_separator_here\nb = 2"` the parse
returns the error for line 1 and no document at all — it does not
continue with the following lines. -/
theorem c1_counterexample :
    Ini.from_string "[a]\nno_separator_here\nb = 2"
        = .error (.missingSeparator 1)
    ∧ (Ini.from_string "[a]\nno_separator_here\nb = 2").toOption = none := by
  constructor
  · decide
  · decide

/-- C1 (amended): the parse is fail-fast — when every line before some
line classifies successfully and that line produces a parse error
carrying its 0-based index, the whole parse returns exactly that error,
whatever lines follow. -/
theorem c1_fail_fast (start : Ini) (i : Nat) (pre : List Chars)
    (line : Chars) (rest : List Chars) (e : ParseError)
    (hpre : ∀ l ∈ pre, ∀ j : Nat, ∃ p, parse_line l j = .ok p)
    (hline : parse_line line (i + pre.length) = .error e) :
    parseLinesFrom start i (pre ++ line :: rest) = .error e := by
  induction pre generalizing start i with
  | nil =>
    simp only [List.length_nil, Nat.add_zero] at hline
    simp only [List.nil_append, parseLinesFrom, hline]
  | cons l pre' ih =>
    rcases hpre l (List.mem_cons_self l pre') i with ⟨p, hp⟩
    have hline' : parse_line line ((i + 1) + pre'.length) = .error e := by
      rw [show (i + 1) + pre'.length = i + (l :: pre').length by
        simp [List.length_cons]; omega]
      exact hline
    have hpre' : ∀ l' ∈ pre', ∀ j : Nat, ∃ p, parse_line l' j = .ok p :=
      fun l' hl' => hpre l' (List.mem_cons_of_mem l hl')
    simp only [List.cons_append, parseLinesFrom, hp]
    cases p with
    | Empty => exact ih _ _ hpre' hline'
    | Comment => exact ih _ _ hpre' hline'
    | Section name => exact ih _ _ hpre' hline'
    | Value k v => exact ih _ _ hpre' hline'

/-- Witness for C1 (amended) at the spec's error-reporting scenario. -/
theorem c1_fail_fast_witness :
    Ini.from_string "[a]\nno_separator_here\nb = 2"
      = .error (.missingSeparator 1) := by
  have hs : strLines (String.toList "[a]\nno_separator_here\nb = 2")
      = ["[a]".toList] ++ "no_separator_here".toList :: ["b = 2".toList] := by
    decide
  show parseLinesFrom Ini.new 0 (strLines (String.toList "[a]\nno_separator_here\nb = 2"))
    = .error (.missingSeparator 1)
  rw [hs]
  exact c1_fail_fast Ini.new 0 ["[a]".toList] "no_separator_here".toList
    ["b = 2".toList] (.missingSeparator 1)
    (by
      intro l hl j
      simp only [List.mem_singleton] at hl
      subst hl
      exact ⟨.Section ['a'], rfl⟩)
    (by decide)

end Tini

namespace Tini

/-! ### C7: key-value lines before any section header -/

theorem parseLinesFrom_skip (ini : Ini) (i : Nat) (pre rest : List Chars)
    (hpre : ∀ l ∈ pre, ∀ j : Nat,
      parse_line l j = .ok .Empty ∨ parse_line l j = .ok .Comment) :
    parseLinesFrom ini i (pre ++ rest) = parseLinesFrom ini (i + pre.length) rest := by
  induction pre generalizing i with
  | nil => simp
  | cons l pre' ih =>
    have hl := hpre l (List.mem_cons_self l pre') i
    have hpre' : ∀ l' ∈ pre', ∀ j : Nat,
        parse_line l' j = .ok .Empty ∨ parse_line l' j = .ok .Comment :=
      fun l' hl' => hpre l' (List.mem_cons_of_mem l hl')
    have hlen : i + (l :: pre').length = (i + 1) + pre'.length := by
      simp only [List.length_cons]; omega
    rw [hlen]
    rcases hl with h | h
    · simp only [List.cons_append, parseLinesFrom, h]
      exact ih (i + 1) hpre'
    · simp only [List.cons_append, parseLinesFrom, h]
      exact ih (i + 1) hpre'

/-- C7: a key-value line that precedes any section header is accepted:
after any run of blank/comment lines, a `Value` line folds the pair into
the implicit unnamed section — the document right after it is exactly
`[("" , [(k, v)])]` — and parsing simply continues with the remaining
lines from that state. -/
theorem c7_implicit_empty_section (pre : List Chars) (line : Chars)
    (rest : List Chars) (k v : Chars)
    (hpre : ∀ l ∈ pre, ∀ j : Nat,
      parse_line l j = .ok .Empty ∨ parse_line l j = .ok .Comment)
    (hline : parse_line line pre.length = .ok (.Value k v)) :
    parseLinesFrom Ini.new 0 (pre ++ line :: rest)
        = parseLinesFrom (Ini.new.item k v) (pre.length + 1) rest
    ∧ (Ini.new.item k v).document = [([], [(k, v)])] := by
  constructor
  · rw [parseLinesFrom_skip Ini.new 0 pre (line :: rest) hpre]
    rw [Nat.zero_add]
    simp only [parseLinesFrom, hline]
  · rfl

/-- Witness for C7: the single-line input `"k = v"`. -/
theorem c7_implicit_empty_section_witness :
    parseLinesFrom Ini.new 0 ["k = v".toList]
        = parseLinesFrom (Ini.new.item "k".toList "v".toList) 1 []
    ∧ (Ini.new.item "k".toList "v".toList).document
        = [([], [("k".toList, "v".toList)])] :=
  c7_implicit_empty_section [] "k = v".toList [] "k".toList "v".toList
    (by intro l hl; cases hl) (by decide)

/-! ### C3: the Display output is the spec's canonical form -/

theorem joinSep_cons (sep l : Chars) (ls : List Chars) (h : ls ≠ []) :
    joinSep sep (l :: ls) = l ++ sep ++ joinSep sep ls := by
  cases ls with
  | nil => exact absurd rfl h
  | cons l2 ls' => rfl

theorem joinSep_append (sep : Chars) (xs ys : List Chars)
    (hx : xs ≠ []) (hy : ys ≠ []) :
    joinSep sep (xs ++ ys) = joinSep sep xs ++ sep ++ joinSep sep ys := by
  induction xs with
  | nil => exact absurd rfl hx
  | cons x xs' ih =>
    cases hxs' : xs' with
    | nil =>
      simp only [List.cons_append, List.nil_append]
      rw [joinSep_cons sep x ys hy]
      rfl
    | cons x2 xs'' =>
      rw [← hxs']
      have hxs'ne : xs' ≠ [] := by rw [hxs']; simp
      rw [List.cons_append,
        joinSep_cons sep x (xs' ++ ys) (by simp [hxs'ne]),
        joinSep_cons sep x xs' hxs'ne, ih hxs'ne]
      simp [List.append_assoc]

theorem displayItems_ne_nil (doc : OMap Sec) (h : doc ≠ []) :
    displayItems doc ≠ [] := by
  cases doc with
  | nil => exact absurd rfl h
  | cons p rest => simp [displayItems]

theorem dropLast_displayItems_ne_nil (doc : OMap Sec) (h : doc ≠ []) :
    (displayItems doc).dropLast ≠ [] := by
  cases doc with
  | nil => exact absurd rfl h
  | cons p rest =>
    have hshape : displayItems (p :: rest)
        = ((headerLine p.1 :: List.map (fun q => pairLine q.1 q.2) p.2) ++ [[]])
          ++ displayItems rest := by
      simp [displayItems]
    cases hrest : displayItems rest with
    | nil =>
      rw [hshape, hrest, List.append_nil, List.dropLast_concat]
      simp
    | cons r rs =>
      rw [hshape, hrest]
      rw [List.dropLast_append_of_ne_nil _ (by simp)]
      simp

theorem joinSep_dropLast_displayItems (doc : OMap Sec) :
    joinSep ['\n'] (displayItems doc).dropLast = specDisplay doc := by
  induction doc with
  | nil => rfl
  | cons p rest ih =>
    cases rest with
    | nil =>
      have h1 : displayItems [p]
          = (headerLine p.1 :: List.map (fun q => pairLine q.1 q.2) p.2) ++ [[]] := by
        simp [displayItems]
      rw [h1, List.dropLast_concat]
      rfl
    | cons r rs =>
      have hshape : displayItems (p :: r :: rs)
          = ((headerLine p.1 :: List.map (fun q => pairLine q.1 q.2) p.2) ++ [[]])
            ++ displayItems (r :: rs) := by
        simp [displayItems]
      have hne : displayItems (r :: rs) ≠ [] := displayItems_ne_nil _ (by simp)
      have hd : (displayItems (r :: rs)).dropLast ≠ [] :=
        dropLast_displayItems_ne_nil _ (by simp)
      rw [hshape, List.dropLast_append_of_ne_nil _ hne, List.append_assoc]
      rw [joinSep_append ['\n'] _ _ (by simp) (by simp)]
      rw [show (([[]] : List Chars) ++ (displayItems (r :: rs)).dropLast)
        = [] :: (displayItems (r :: rs)).dropLast from rfl]
      rw [joinSep_cons ['\n'] [] _ hd, ih]
      have h2 : specDisplay (p :: r :: rs)
          = sectionBlock p.1 p.2 ++ ['\n', '\n'] ++ specDisplay (r :: rs) := by
        show joinSep ['\n', '\n'] ((p :: r :: rs).map (fun q => sectionBlock q.1 q.2)) = _
        rw [List.map_cons]
        rw [joinSep_cons _ _ _ (by simp)]
        rfl
      rw [h2]
      simp [sectionBlock, List.append_assoc]

/-- C3: for every document, the Display output is exactly the canonical
form the spec describes: each section in insertion order rendered as the
`[name]` line followed by its `key = value` lines in insertion order, one
per line, with exactly one blank line between consecutive sections and no
trailing blank line. -/
theorem c3_canonical_serialization (ini : Ini) :
    toDisplay ini = specDisplay ini.document :=
  joinSep_dropLast_displayItems ini.document

end Tini

namespace Tini

/-! ### C2: round-trip.  First, trim and single-line parsing lemmas. -/

theorem contains_eq_false_iff (l : Chars) (c : Char) :
    l.contains c = false ↔ c ∉ l := by
  constructor
  · intro h hm
    rw [show List.contains l c = List.elem c l from rfl, List.elem_iff.mpr hm] at h
    cases h
  · intro h
    rw [show List.contains l c = List.elem c l from rfl]
    cases he : List.elem c l with
    | false => rfl
    | true => exact absurd (List.elem_iff.mp he) h

theorem headNotWs_cons (c : Char) (l : Chars) : headNotWs (c :: l) = !isWs c := rfl

theorem lastNotWs_concat (l : Chars) (c : Char) : lastNotWs (l ++ [c]) = !isWs c := by
  unfold lastNotWs
  rw [List.getLast?_concat]

theorem dropWhile_isWs_eq_self (l : Chars) (h : headNotWs l = true) :
    l.dropWhile isWs = l := by
  cases l with
  | nil => rfl
  | cons c rest =>
    rw [headNotWs_cons] at h
    rw [List.dropWhile_cons, if_neg]
    simp only [Bool.not_eq_true'] at h
    simp [h]

theorem trimL_eq_self (l : Chars) (h : headNotWs l = true) : trimL l = l :=
  dropWhile_isWs_eq_self l h

theorem headNotWs_reverse (l : Chars) : headNotWs l.reverse = lastNotWs l := by
  unfold lastNotWs
  rw [← List.head?_reverse]
  cases l.reverse with
  | nil => rfl
  | cons c rest => rfl

theorem trimR_eq_self (l : Chars) (h : lastNotWs l = true) : trimR l = l := by
  unfold trimR
  rw [dropWhile_isWs_eq_self l.reverse (by rw [headNotWs_reverse]; exact h)]
  exact List.reverse_reverse l

theorem trim_eq_self (l : Chars) (h1 : headNotWs l = true) (h2 : lastNotWs l = true) :
    trim l = l := by
  unfold trim
  rw [trimL_eq_self l h1, trimR_eq_self l h2]

theorem trimR_append_space (k : Chars) (h : lastNotWs k = true) :
    trimR (k ++ [' ']) = k := by
  unfold trimR
  rw [List.reverse_append]
  show (List.dropWhile isWs (' ' :: k.reverse)).reverse = k
  rw [List.dropWhile_cons, if_pos (by decide)]
  rw [dropWhile_isWs_eq_self k.reverse (by rw [headNotWs_reverse]; exact h)]
  exact List.reverse_reverse k

theorem splitAtFirst_eq_of_not_mem (a b : Chars) (h : '=' ∉ a) :
    splitAtFirst '=' (a ++ '=' :: b) = some (a, b) := by
  induction a with
  | nil =>
    show splitAtFirst '=' ('=' :: b) = some ([], b)
    rw [splitAtFirst, if_pos rfl]
  | cons c a' ih =>
    simp only [List.mem_cons] at h
    push_neg at h
    rw [List.cons_append, splitAtFirst, if_neg (fun hc => h.1 hc.symm)]
    rw [ih h.2]
    rfl

theorem goodName_parts (n : Chars) (h : goodName n = true) :
    n ≠ [] ∧ headNotWs n = true ∧ lastNotWs n = true ∧ '\n' ∉ n := by
  simp only [goodName, Bool.and_eq_true] at h
  obtain ⟨⟨⟨h1, h2⟩, h3⟩, h4⟩ := h
  refine ⟨?_, h2, h3, ?_⟩
  · cases n with
    | nil => cases h1
    | cons c l => simp
  · rw [Bool.not_eq_true'] at h4
    exact (contains_eq_false_iff n '\n').mp h4

theorem goodKey_parts (k : Chars) (h : goodKey k = true) :
    startsOk k = true ∧ headNotWs k = true ∧ lastNotWs k = true
      ∧ '\n' ∉ k ∧ '=' ∉ k := by
  simp only [goodKey, Bool.and_eq_true] at h
  obtain ⟨⟨⟨⟨h1, h2⟩, h3⟩, h4⟩, h5⟩ := h
  rw [Bool.not_eq_true'] at h4 h5
  exact ⟨h1, h2, h3, (contains_eq_false_iff k '\n').mp h4,
    (contains_eq_false_iff k '=').mp h5⟩

theorem goodValue_parts (v : Chars) (h : goodValue v = true) :
    headNotWs v = true ∧ lastNotWs v = true ∧ '\n' ∉ v ∧ notQuoted v = true := by
  simp only [goodValue, Bool.and_eq_true] at h
  obtain ⟨⟨⟨h1, h2⟩, h3⟩, h4⟩ := h
  rw [Bool.not_eq_true'] at h3
  exact ⟨h1, h2, (contains_eq_false_iff v '\n').mp h3, h4⟩

theorem parse_line_headerLine (n : Chars) (h : goodName n = true) (i : Nat) :
    parse_line (headerLine n) i = .ok (.Section n) := by
  obtain ⟨hne, hh, hl, -⟩ := goodName_parts n h
  have hshape : headerLine n = '[' :: (n ++ [']']) := rfl
  have htrim : trim (headerLine n) = '[' :: (n ++ [']']) := by
    rw [hshape]
    apply trim_eq_self
    · rw [headNotWs_cons]; decide
    · show lastNotWs (('[' :: n) ++ [']']) = true
      rw [lastNotWs_concat]; decide
  rw [parse_line, htrim]
  dsimp only
  rw [if_neg (by decide), if_pos rfl, if_pos (List.getLast?_concat n)]
  rw [List.dropLast_concat, trim_eq_self n hh hl]
  cases n with
  | nil => exact absurd rfl hne
  | cons c l => rfl

end Tini

namespace Tini

theorem getLast?_pairLine (k v : Chars) (c : Char) (h : v.getLast? = some c) :
    (pairLine k v).getLast? = some c := by
  show (k ++ (' ' :: '=' :: ' ' :: v)).getLast? = some c
  rw [List.getLast?_append]
  have h2 : (' ' :: '=' :: ' ' :: v).getLast? = some c := by
    show ([' ', '=', ' '] ++ v).getLast? = some c
    rw [List.getLast?_append, h]
    rfl
  rw [h2]
  rfl

theorem parseValueChars_space_good (v : Chars) (hvh : headNotWs v = true)
    (hvl : lastNotWs v = true) (hq : notQuoted v = true) :
    parseValueChars (' ' :: v) = v := by
  have htrim : trim (' ' :: v) = v := by
    unfold trim trimL
    rw [List.dropWhile_cons, if_pos (by decide), dropWhile_isWs_eq_self v hvh]
    exact trimR_eq_self v hvl
  unfold parseValueChars
  rw [htrim]
  cases v with
  | nil => rfl
  | cons vc v' =>
    dsimp only
    rw [if_neg]
    rintro ⟨hq1, hq2⟩
    simp only [notQuoted, Bool.not_eq_true'] at hq
    rcases Bool.and_eq_false_iff.mp hq with h | h
    · rw [hq1] at h; cases h
    · rw [beq_eq_false_iff_ne] at h
      exact h hq2

theorem trim_key_space (k : Chars) (hkh : headNotWs k = true)
    (hkl : lastNotWs k = true) (hne : k ≠ []) :
    trim (k ++ [' ']) = k := by
  unfold trim
  have h1 : trimL (k ++ [' ']) = k ++ [' '] := by
    apply trimL_eq_self
    cases k with
    | nil => exact absurd rfl hne
    | cons c l =>
      rw [List.cons_append, headNotWs_cons]
      rw [headNotWs_cons] at hkh
      exact hkh
  rw [h1]
  exact trimR_append_space k hkl

theorem parse_line_pairLine (k v : Chars) (hk : goodKey k = true)
    (hv : goodValue v = true) (i : Nat) :
    parse_line (pairLine k v) i = .ok (.Value k v) := by
  obtain ⟨hs, hkh, hkl, -, hkeq⟩ := goodKey_parts k hk
  obtain ⟨hvh, hvl, -, hvq⟩ := goodValue_parts v hv
  cases k with
  | nil => cases hs
  | cons kc k' =>
  simp only [startsOk, Bool.not_eq_true', Bool.or_eq_false_iff,
    decide_eq_false_iff_not] at hs
  obtain ⟨⟨hs1, hs2⟩, hs3⟩ := hs
  have hkne : (kc :: k') ≠ [] := by simp
  have hmem : '=' ∉ (kc :: k') ++ [' '] := by
    intro hm
    rcases List.mem_append.mp hm with h | h
    · exact hkeq h
    · simp only [List.mem_singleton] at h; cases h
  have hkeytrim : trim ((kc :: k') ++ [' ']) = kc :: k' :=
    trim_key_space (kc :: k') hkh hkl hkne
  rw [headNotWs_cons] at hkh
  cases v with
  | nil =>
    have htrim : trim (pairLine (kc :: k') []) = kc :: (k' ++ [' ', '=']) := by
      unfold trim
      have h1 : trimL (pairLine (kc :: k') []) = pairLine (kc :: k') [] := by
        apply trimL_eq_self
        show headNotWs (kc :: (k' ++ [' ', '=', ' '])) = true
        rw [headNotWs_cons]
        exact hkh
      rw [h1]
      show ((pairLine (kc :: k') []).reverse.dropWhile isWs).reverse
        = kc :: (k' ++ [' ', '='])
      have h2 : (pairLine (kc :: k') []).reverse
          = ' ' :: '=' :: ' ' :: (kc :: k').reverse := by
        show ((kc :: k') ++ [' ', '=', ' ']).reverse = _
        rw [List.reverse_append]
        rfl
      rw [h2, List.dropWhile_cons, if_pos (by decide)]
      show (List.dropWhile isWs ('=' :: ' ' :: (kc :: k').reverse)).reverse = _
      rw [List.dropWhile_cons, if_neg (by decide)]
      simp
    rw [parse_line, htrim]
    dsimp only
    rw [if_neg (by exact fun hc => hc.elim hs1 hs2), if_neg hs3]
    have hsplit : splitAtFirst '=' (kc :: (k' ++ [' ', '=']))
        = some ((kc :: k') ++ [' '], []) := by
      have hre : (kc :: (k' ++ [' ', '='])) = ((kc :: k') ++ [' ']) ++ '=' :: [] := by
        simp
      rw [hre]
      exact splitAtFirst_eq_of_not_mem _ _ hmem
    rw [hsplit]
    dsimp only
    rw [hkeytrim]
    rfl
  | cons vc v' =>
    have hvne : (vc :: v') ≠ [] := by simp
    have hgl : (vc :: v').getLast? = some ((vc :: v').getLast hvne) :=
      List.getLast?_eq_getLast _ hvne
    have hvl' : isWs ((vc :: v').getLast hvne) = false := by
      unfold lastNotWs at hvl
      rw [hgl] at hvl
      dsimp only at hvl
      rw [Bool.not_eq_true'] at hvl
      exact hvl
    have htrim : trim (pairLine (kc :: k') (vc :: v'))
        = kc :: (k' ++ (' ' :: '=' :: ' ' :: vc :: v')) := by
      apply trim_eq_self
      · show headNotWs (kc :: (k' ++ (' ' :: '=' :: ' ' :: vc :: v'))) = true
        rw [headNotWs_cons]
        exact hkh
      · unfold lastNotWs
        rw [getLast?_pairLine (kc :: k') (vc :: v') _ hgl]
        dsimp only
        rw [hvl']
        rfl
    rw [parse_line, htrim]
    dsimp only
    rw [if_neg (by exact fun hc => hc.elim hs1 hs2), if_neg hs3]
    have hsplit : splitAtFirst '=' (kc :: (k' ++ (' ' :: '=' :: ' ' :: vc :: v')))
        = some ((kc :: k') ++ [' '], ' ' :: vc :: v') := by
      have hre : (kc :: (k' ++ (' ' :: '=' :: ' ' :: vc :: v')))
          = ((kc :: k') ++ [' ']) ++ '=' :: (' ' :: vc :: v') := by
        simp
      rw [hre]
      exact splitAtFirst_eq_of_not_mem _ _ hmem
    rw [hsplit]
    dsimp only
    rw [hkeytrim]
    rw [parseValueChars_space_good (vc :: v') hvh hvl hvq]

end Tini

namespace Tini

/-! ### C2: recovering the item lines from the rendered text -/

theorem splitChar_eq_single (c : Char) (a : Chars) (h : c ∉ a) :
    splitChar c a = [a] := by
  induction a with
  | nil => rfl
  | cons x a' ih =>
    simp only [List.mem_cons] at h
    push_neg at h
    rw [splitChar, if_neg (fun hc => h.1 hc.symm), ih h.2]

theorem splitChar_append_cons (c : Char) (a s : Chars) (h : c ∉ a) :
    splitChar c (a ++ c :: s) = a :: splitChar c s := by
  induction a with
  | nil =>
    show splitChar c (c :: s) = [] :: splitChar c s
    rw [splitChar, if_pos rfl]
  | cons x a' ih =>
    simp only [List.mem_cons] at h
    push_neg at h
    rw [List.cons_append, splitChar, if_neg (fun hc => h.1 hc.symm), ih h.2]

theorem splitChar_joinSep (ls : List Chars) (hne : ls ≠ [])
    (h : ∀ l ∈ ls, '\n' ∉ l) :
    splitChar '\n' (joinSep ['\n'] ls) = ls := by
  induction ls with
  | nil => exact absurd rfl hne
  | cons l ls' ih =>
    cases ls' with
    | nil => exact splitChar_eq_single '\n' l (h l (List.mem_cons_self l []))
    | cons r rs =>
      rw [joinSep_cons ['\n'] l (r :: rs) (by simp), List.append_assoc]
      rw [show (['\n'] ++ joinSep ['\n'] (r :: rs) : Chars)
        = '\n' :: joinSep ['\n'] (r :: rs) from rfl]
      rw [splitChar_append_cons '\n' l _ (h l (List.mem_cons_self l _))]
      rw [ih (by simp) (fun x hx => h x (List.mem_cons_of_mem l hx))]

theorem getLast?_joinSep (ls : List Chars) (ll : Chars)
    (hl : ls.getLast? = some ll) (hlne : ll ≠ []) :
    (joinSep ['\n'] ls).getLast? = ll.getLast? := by
  induction ls with
  | nil => cases hl
  | cons l ls' ih =>
    cases ls' with
    | nil =>
      simp only [List.getLast?_singleton] at hl
      rw [show joinSep ['\n'] [l] = l from rfl]
      rw [← Option.some_inj.mp hl]
    | cons r rs =>
      rw [List.getLast?_cons_cons] at hl
      have hJ := ih hl
      rw [joinSep_cons ['\n'] l (r :: rs) (by simp)]
      rw [List.append_assoc, List.getLast?_append, List.getLast?_append]
      rw [hJ]
      have hllsome : ll.getLast? = some (ll.getLast hlne) :=
        List.getLast?_eq_getLast ll hlne
      rw [hllsome]
      rfl

theorem map_dropCR_eq_self (ls : List Chars)
    (h : ∀ l ∈ ls, l.getLast? ≠ some '\r') :
    ls.map dropCR = ls := by
  induction ls with
  | nil => rfl
  | cons l ls' ih =>
    rw [List.map_cons]
    rw [show dropCR l = l from by
      unfold dropCR
      rw [if_neg (h l (List.mem_cons_self l ls'))]]
    rw [ih (fun x hx => h x (List.mem_cons_of_mem l hx))]

theorem strLines_joinSep (ls : List Chars) (ll : Chars)
    (hl : ls.getLast? = some ll) (hlne : ll ≠ [])
    (hmem : ll ∈ ls)
    (h : ∀ l ∈ ls, '\n' ∉ l ∧ l.getLast? ≠ some '\r') :
    strLines (joinSep ['\n'] ls) = ls := by
  have hne : ls ≠ [] := by
    intro h0; rw [h0] at hl; cases hl
  have hgl : (joinSep ['\n'] ls).getLast? = ll.getLast? :=
    getLast?_joinSep ls ll hl hlne
  have hllsome : ll.getLast? = some (ll.getLast hlne) :=
    List.getLast?_eq_getLast ll hlne
  have hsne : joinSep ['\n'] ls ≠ [] := by
    intro h0
    rw [h0] at hgl
    rw [hllsome] at hgl
    cases hgl
  have hlastchar : (joinSep ['\n'] ls).getLast? ≠ some '\n' := by
    rw [hgl, hllsome]
    intro hc
    have : ll.getLast hlne = '\n' := Option.some_inj.mp hc
    exact (h ll hmem).1 (this ▸ List.getLast_mem hlne)
  unfold strLines
  rw [if_neg hsne]
  dsimp only
  rw [if_neg hlastchar]
  rw [splitChar_joinSep ls hne (fun l hm => (h l hm).1)]
  exact map_dropCR_eq_self ls (fun l hm => (h l hm).2)

end Tini

namespace Tini

/-! ### C2: folding the rendered lines back into a document -/

theorem parseLinesFrom_append (ini : Ini) (i : Nat) (xs ys : List Chars) :
    parseLinesFrom ini i (xs ++ ys) =
      match parseLinesFrom ini i xs with
      | .error e => .error e
      | .ok s => parseLinesFrom s (i + xs.length) ys := by
  induction xs generalizing ini i with
  | nil => simp [parseLinesFrom]
  | cons l xs' ih =>
    have hlen : i + (l :: xs').length = (i + 1) + xs'.length := by
      simp only [List.length_cons]; omega
    rw [hlen]
    cases hp : parse_line l i with
    | error e =>
      simp only [List.cons_append, parseLinesFrom, hp]
    | ok p =>
      cases p with
      | Empty => simp only [List.cons_append, parseLinesFrom, hp]; exact ih _ _
      | Comment => simp only [List.cons_append, parseLinesFrom, hp]; exact ih _ _
      | Section name => simp only [List.cons_append, parseLinesFrom, hp]; exact ih _ _
      | Value k v => simp only [List.cons_append, parseLinesFrom, hp]; exact ih _ _

theorem entryInsert_not_mem (sec k v : Chars) (doc : OMap Sec)
    (h : sec ∉ doc.map Prod.fst) :
    entryInsert sec k v doc = doc ++ [(sec, [(k, v)])] := by
  induction doc with
  | nil => rfl
  | cons p rest ih =>
    simp only [List.map_cons, List.mem_cons] at h
    push_neg at h
    rw [entryInsert, if_neg (fun hc => h.1 hc.symm), ih h.2]
    rfl

theorem entryInsert_at_end (sec k v : Chars) (D : OMap Sec) (m : Sec)
    (h : sec ∉ D.map Prod.fst) :
    entryInsert sec k v (D ++ [(sec, m)]) = D ++ [(sec, omInsert k v m)] := by
  induction D with
  | nil =>
    show entryInsert sec k v [(sec, m)] = [(sec, omInsert k v m)]
    rw [entryInsert, if_pos rfl]
  | cons p D' ih =>
    simp only [List.map_cons, List.mem_cons] at h
    push_neg at h
    rw [List.cons_append, entryInsert, if_neg (fun hc => h.1 hc.symm), ih h.2]
    rfl

theorem omInsert_not_mem {α : Type} (k : Chars) (v : α) (m : OMap α)
    (h : k ∉ m.map Prod.fst) :
    omInsert k v m = m ++ [(k, v)] := by
  induction m with
  | nil => rfl
  | cons p rest ih =>
    simp only [List.map_cons, List.mem_cons] at h
    push_neg at h
    rw [omInsert, if_neg (fun hc => h.1 hc.symm), ih h.2]
    rfl

theorem parse_kv_fold (D : OMap Sec) (n : Chars) (acc m : Sec)
    (R : List Chars) (i : Nat)
    (hn : n ∉ D.map Prod.fst)
    (hkeys : ∀ q ∈ m, goodKey q.1 = true ∧ goodValue q.2 = true)
    (hnodup : ((acc ++ m).map Prod.fst).Nodup) :
    parseLinesFrom ⟨D ++ [(n, acc)], n⟩ i (m.map (fun q => pairLine q.1 q.2) ++ R)
      = parseLinesFrom ⟨D ++ [(n, acc ++ m)], n⟩ (i + m.length) R := by
  induction m generalizing acc i with
  | nil => simp
  | cons q m' ih =>
    obtain ⟨hgk, hgv⟩ := hkeys q (List.mem_cons_self q m')
    have hkacc : q.1 ∉ acc.map Prod.fst := by
      rw [List.map_append] at hnodup
      rcases List.nodup_append.mp hnodup with ⟨-, -, hdis⟩
      intro hmem
      exact hdis hmem (by simp)
    have hstate : Ini.item ⟨D ++ [(n, acc)], n⟩ q.1 q.2
        = ⟨D ++ [(n, acc ++ [q])], n⟩ := by
      show (⟨entryInsert n q.1 q.2 (D ++ [(n, acc)]), n⟩ : Ini) = _
      rw [entryInsert_at_end n q.1 q.2 D acc hn,
        omInsert_not_mem q.1 q.2 acc hkacc]
    have hnodup' : (((acc ++ [q]) ++ m').map Prod.fst).Nodup := by
      rw [← List.append_cons]
      exact hnodup
    have hkeys' : ∀ r ∈ m', goodKey r.1 = true ∧ goodValue r.2 = true :=
      fun r hr => hkeys r (List.mem_cons_of_mem q hr)
    rw [List.map_cons, List.cons_append]
    rw [show parseLinesFrom ⟨D ++ [(n, acc)], n⟩ i
        (pairLine q.1 q.2 :: (m'.map (fun r => pairLine r.1 r.2) ++ R))
      = parseLinesFrom (Ini.item ⟨D ++ [(n, acc)], n⟩ q.1 q.2) (i + 1)
        (m'.map (fun r => pairLine r.1 r.2) ++ R) from by
      rw [parseLinesFrom, parse_line_pairLine q.1 q.2 hgk hgv i]]
    rw [hstate, ih (acc ++ [q]) (i + 1) hkeys' hnodup']
    rw [← List.append_cons]
    have hlen : (i + 1) + m'.length = i + (q :: m').length := by
      simp only [List.length_cons]; omega
    rw [hlen]

theorem parse_sections_fold (doc : OMap Sec) (ini : Ini) (i : Nat)
    (hnodup : (ini.document.map Prod.fst ++ doc.map Prod.fst).Nodup)
    (hWF : ∀ p ∈ doc, goodName p.1 = true ∧ p.2 ≠ [] ∧ (p.2.map Prod.fst).Nodup ∧
      ∀ q ∈ p.2, goodKey q.1 = true ∧ goodValue q.2 = true) :
    ∃ nm, parseLinesFrom ini i (displayItems doc) = .ok ⟨ini.document ++ doc, nm⟩ := by
  induction doc generalizing ini i with
  | nil =>
    refine ⟨ini.last_section_name, ?_⟩
    show Except.ok ini = _
    rw [List.append_nil]
  | cons p rest ih =>
    obtain ⟨hgn, hmne, hmnodup, hkeys⟩ := hWF p (List.mem_cons_self p rest)
    have hn : p.1 ∉ ini.document.map Prod.fst := by
      rcases List.nodup_append.mp hnodup with ⟨-, -, hdis⟩
      intro hmem
      exact hdis hmem (by simp)
    cases hm : p.2 with
    | nil => exact absurd hm hmne
    | cons q0 m' =>
    have hshape : displayItems (p :: rest)
        = headerLine p.1 :: (pairLine q0.1 q0.2 ::
            (m'.map (fun r => pairLine r.1 r.2)
              ++ ([] :: displayItems rest))) := by
      show (headerLine p.1 :: (p.2.map (fun r => pairLine r.1 r.2) ++ [[]]))
          ++ displayItems rest = _
      rw [hm]
      simp [List.append_assoc]
    rw [hshape]
    rw [show parseLinesFrom ini i (headerLine p.1 :: (pairLine q0.1 q0.2 ::
          (m'.map (fun r => pairLine r.1 r.2) ++ ([] :: displayItems rest))))
        = parseLinesFrom (ini.section_ p.1) (i + 1) (pairLine q0.1 q0.2 ::
          (m'.map (fun r => pairLine r.1 r.2) ++ ([] :: displayItems rest))) from by
      rw [parseLinesFrom, parse_line_headerLine p.1 hgn i]]
    obtain ⟨hq0k, hq0v⟩ := hkeys q0 (by rw [hm]; exact List.mem_cons_self q0 m')
    rw [show parseLinesFrom (ini.section_ p.1) (i + 1) (pairLine q0.1 q0.2 ::
          (m'.map (fun r => pairLine r.1 r.2) ++ ([] :: displayItems rest)))
        = parseLinesFrom ((ini.section_ p.1).item q0.1 q0.2) (i + 2)
          (m'.map (fun r => pairLine r.1 r.2) ++ ([] :: displayItems rest)) from by
      rw [parseLinesFrom, parse_line_pairLine q0.1 q0.2 hq0k hq0v (i + 1)]]
    have hstate0 : (ini.section_ p.1).item q0.1 q0.2
        = ⟨ini.document ++ [(p.1, [q0])], p.1⟩ := by
      show (⟨entryInsert p.1 q0.1 q0.2 ini.document, p.1⟩ : Ini) = _
      rw [entryInsert_not_mem p.1 q0.1 q0.2 ini.document hn]
    rw [hstate0]
    have hkeys' : ∀ r ∈ m', goodKey r.1 = true ∧ goodValue r.2 = true :=
      fun r hr => hkeys r (by rw [hm]; exact List.mem_cons_of_mem q0 hr)
    have hm'nodup : (([q0] ++ m').map Prod.fst).Nodup := by
      rw [show [q0] ++ m' = q0 :: m' from rfl, ← hm]
      exact hmnodup
    rw [parse_kv_fold ini.document p.1 [q0] m' ([] :: displayItems rest)
      (i + 2) hn hkeys' hm'nodup]
    rw [show ([q0] ++ m' : Sec) = p.2 from by rw [hm]; rfl]
    rw [show parseLinesFrom ⟨ini.document ++ [(p.1, p.2)], p.1⟩
          ((i + 2) + m'.length) ([] :: displayItems rest)
        = parseLinesFrom ⟨ini.document ++ [(p.1, p.2)], p.1⟩
          ((i + 2) + m'.length + 1) (displayItems rest) from by
      rw [parseLinesFrom]
      rfl]
    have hnodup' : ((⟨ini.document ++ [(p.1, p.2)], p.1⟩ : Ini).document.map Prod.fst
        ++ rest.map Prod.fst).Nodup := by
      show ((ini.document ++ [(p.1, p.2)]).map Prod.fst ++ rest.map Prod.fst).Nodup
      rw [List.map_append, List.append_assoc]
      show (ini.document.map Prod.fst ++ ([(p.1, p.2)].map Prod.fst ++ rest.map Prod.fst)).Nodup
      rw [show ([(p.1, p.2)].map Prod.fst ++ rest.map Prod.fst : List Chars)
        = p.1 :: rest.map Prod.fst from rfl]
      rw [List.map_cons] at hnodup
      exact hnodup
    have hWF' : ∀ r ∈ rest, goodName r.1 = true ∧ r.2 ≠ [] ∧ (r.2.map Prod.fst).Nodup ∧
        ∀ q ∈ r.2, goodKey q.1 = true ∧ goodValue q.2 = true :=
      fun r hr => hWF r (List.mem_cons_of_mem p hr)
    obtain ⟨nm, hrest⟩ := ih ⟨ini.document ++ [(p.1, p.2)], p.1⟩
      ((i + 2) + m'.length + 1) hnodup' hWF'
    refine ⟨nm, ?_⟩
    rw [hrest]
    show Except.ok (⟨(ini.document ++ [(p.1, p.2)]) ++ rest, nm⟩ : Ini) = _
    rw [List.append_assoc]
    rfl

end Tini

namespace Tini

theorem headerLine_ne_nil (n : Chars) : headerLine n ≠ [] := by
  show '[' :: (n ++ [']']) ≠ []
  simp

theorem pairLine_ne_nil (k v : Chars) : pairLine k v ≠ [] := by
  show k ++ (' ' :: '=' :: ' ' :: v) ≠ []
  cases k <;> simp

theorem getLast?_dropLast_displayItems (doc : OMap Sec) (h : doc ≠ []) :
    ∃ ll, ((displayItems doc).dropLast).getLast? = some ll ∧ ll ≠ [] := by
  induction doc with
  | nil => exact absurd rfl h
  | cons p rest ih =>
    cases rest with
    | nil =>
      have h1 : (displayItems [p]).dropLast
          = headerLine p.1 :: List.map (fun q => pairLine q.1 q.2) p.2 := by
        have : displayItems [p]
            = (headerLine p.1 :: List.map (fun q => pairLine q.1 q.2) p.2) ++ [[]] := by
          simp [displayItems]
        rw [this, List.dropLast_concat]
      rw [h1]
      have hne : (headerLine p.1 :: List.map (fun q => pairLine q.1 q.2) p.2) ≠ [] := by
        simp
      refine ⟨_, List.getLast?_eq_getLast _ hne, ?_⟩
      have hmem := List.getLast_mem hne
      rcases List.mem_cons.mp hmem with h2 | h2
      · rw [h2]; exact headerLine_ne_nil p.1
      · rcases List.mem_map.mp h2 with ⟨q, -, hq⟩
        rw [← hq]; exact pairLine_ne_nil q.1 q.2
    | cons r rs =>
      have hshape : displayItems (p :: r :: rs)
          = ((headerLine p.1 :: List.map (fun q => pairLine q.1 q.2) p.2) ++ [[]])
            ++ displayItems (r :: rs) := by
        simp [displayItems]
      have hne : displayItems (r :: rs) ≠ [] := displayItems_ne_nil _ (by simp)
      have hdne : (displayItems (r :: rs)).dropLast ≠ [] :=
        dropLast_displayItems_ne_nil _ (by simp)
      obtain ⟨ll, hll, hllne⟩ := ih (by simp)
      refine ⟨ll, ?_, hllne⟩
      rw [hshape, List.dropLast_append_of_ne_nil _ hne, List.getLast?_append, hll]
      rfl

theorem getLast?_displayItems (doc : OMap Sec) (h : doc ≠ []) :
    (displayItems doc).getLast? = some [] := by
  induction doc with
  | nil => exact absurd rfl h
  | cons p rest ih =>
    cases rest with
    | nil =>
      have : displayItems [p]
          = (headerLine p.1 :: List.map (fun q => pairLine q.1 q.2) p.2) ++ [[]] := by
        simp [displayItems]
      rw [this, List.getLast?_concat]
    | cons r rs =>
      have hshape : displayItems (p :: r :: rs)
          = ((headerLine p.1 :: List.map (fun q => pairLine q.1 q.2) p.2) ++ [[]])
            ++ displayItems (r :: rs) := by
        simp [displayItems]
      rw [hshape, List.getLast?_append, ih (by simp)]
      rfl

theorem not_cr_of_not_ws (c : Char) (h : isWs c = false) : c ≠ '\r' := by
  intro hc
  rw [hc] at h
  cases h

theorem headerLine_good (n : Chars) (h : goodName n = true) :
    '\n' ∉ headerLine n ∧ (headerLine n).getLast? ≠ some '\r' := by
  obtain ⟨-, -, -, hnl⟩ := goodName_parts n h
  constructor
  · show '\n' ∉ '[' :: (n ++ [']'])
    intro hm
    rcases List.mem_cons.mp hm with h1 | h1
    · cases h1
    · rcases List.mem_append.mp h1 with h2 | h2
      · exact hnl h2
      · simp only [List.mem_singleton] at h2; cases h2
  · show (('[' :: n) ++ [']']).getLast? ≠ some '\r'
    rw [List.getLast?_concat]
    intro hc
    cases hc

theorem pairLine_good (k v : Chars) (hk : goodKey k = true) (hv : goodValue v = true) :
    '\n' ∉ pairLine k v ∧ (pairLine k v).getLast? ≠ some '\r' := by
  obtain ⟨-, -, -, hknl, -⟩ := goodKey_parts k hk
  obtain ⟨-, hvl, hvnl, -⟩ := goodValue_parts v hv
  constructor
  · show '\n' ∉ k ++ (' ' :: '=' :: ' ' :: v)
    intro hm
    rcases List.mem_append.mp hm with h1 | h1
    · exact hknl h1
    · rcases List.mem_cons.mp h1 with h2 | h2
      · cases h2
      rcases List.mem_cons.mp h2 with h3 | h3
      · cases h3
      rcases List.mem_cons.mp h3 with h4 | h4
      · cases h4
      exact hvnl h4
  · cases v with
    | nil =>
      show (k ++ [' ', '=', ' ']).getLast? ≠ some '\r'
      rw [List.getLast?_append]
      intro hc
      cases hc
    | cons vc v' =>
      have hvne : (vc :: v') ≠ [] := by simp
      have hgl : (vc :: v').getLast? = some ((vc :: v').getLast hvne) :=
        List.getLast?_eq_getLast _ hvne
      rw [getLast?_pairLine k (vc :: v') _ hgl]
      intro hc
      have hc' := Option.some_inj.mp hc
      unfold lastNotWs at hvl
      rw [hgl] at hvl
      dsimp only at hvl
      rw [Bool.not_eq_true'] at hvl
      exact not_cr_of_not_ws _ hvl hc'

theorem displayItems_lines_good (doc : OMap Sec)
    (hWF : ∀ p ∈ doc, goodName p.1 = true ∧ p.2 ≠ [] ∧ (p.2.map Prod.fst).Nodup ∧
      ∀ q ∈ p.2, goodKey q.1 = true ∧ goodValue q.2 = true) :
    ∀ l ∈ displayItems doc, '\n' ∉ l ∧ l.getLast? ≠ some '\r' := by
  induction doc with
  | nil => intro l hl; cases hl
  | cons p rest ih =>
    intro l hl
    obtain ⟨hgn, -, -, hkeys⟩ := hWF p (List.mem_cons_self p rest)
    have hshape : displayItems (p :: rest)
        = ((headerLine p.1 :: List.map (fun q => pairLine q.1 q.2) p.2) ++ [[]])
          ++ displayItems rest := by
      simp [displayItems]
    rw [hshape] at hl
    rcases List.mem_append.mp hl with h1 | h1
    · rcases List.mem_append.mp h1 with h2 | h2
      · rcases List.mem_cons.mp h2 with h3 | h3
        · rw [h3]; exact headerLine_good p.1 hgn
        · rcases List.mem_map.mp h3 with ⟨q, hq, hql⟩
          obtain ⟨hk, hv⟩ := hkeys q hq
          rw [← hql]; exact pairLine_good q.1 q.2 hk hv
      · simp only [List.mem_singleton] at h2
        rw [h2]
        exact ⟨by simp, by intro hc; cases hc⟩
    · exact ih (fun r hr => hWF r (List.mem_cons_of_mem p hr)) l h1

end Tini

namespace Tini

/-- C2 counterexample: the document built purely by the builder API as
`Ini::new().section("a").item("k", "x\ny")` serializes to
`"[a]\nk = x\ny"`, whose re-parse fails with a missing-separator error on
line 2 — so serialize-then-re-parse does not reproduce the document. -/
theorem c2_counterexample :
    Ini.parse (toDisplay ((Ini.new.section_ "a".toList).item "k".toList "x\ny".toList))
        = .error (.missingSeparator 2)
    ∧ ¬ ((Ini.parse (toDisplay ((Ini.new.section_ "a".toList).item "k".toList
          "x\ny".toList))).toOption.map (fun r => r.document)
        = some ((Ini.new.section_ "a".toList).item "k".toList
          "x\ny".toList).document) := by
  constructor
  · decide
  · decide

/-- C2 (amended): round-trip on canonical input holds for every document
built purely through the builder API whose strings are line-safe: section
names non-empty, trim-invariant and newline-free; keys additionally
separator-free and not starting like a comment or header; values
trim-invariant, newline-free and not quote-wrapped (`WFdoc`, which also
records the builder-guaranteed distinctness and non-emptiness).  Then
re-parsing the Display output yields a document with the same section
order, the same key order in each section, and the same values. -/
theorem c2_roundtrip (d : Ini) (h : WFdoc d.document) :
    (Ini.parse (toDisplay d)).toOption.map (fun r => r.document)
      = some d.document := by
  obtain ⟨hnodup, hWF⟩ := h
  by_cases hdocnil : d.document = []
  · have hdisp : toDisplay d = [] := by
      unfold toDisplay
      rw [hdocnil]
      rfl
    rw [hdisp, hdocnil]
    rfl
  · have hdocne : d.document ≠ [] := hdocnil
    obtain ⟨ll, hll, hllne⟩ := getLast?_dropLast_displayItems d.document hdocne
    have hgood : ∀ l ∈ (displayItems d.document).dropLast,
        '\n' ∉ l ∧ l.getLast? ≠ some '\r' :=
      fun l hl => displayItems_lines_good d.document hWF l
        (List.mem_of_mem_dropLast hl)
    have hne2 : (displayItems d.document).dropLast ≠ [] :=
      dropLast_displayItems_ne_nil d.document hdocne
    have hmemll : ll ∈ (displayItems d.document).dropLast := by
      have hll2 := List.getLast?_eq_getLast ((displayItems d.document).dropLast) hne2
      rw [hll] at hll2
      rw [Option.some_inj.mp hll2]
      exact List.getLast_mem hne2
    have hA : strLines (toDisplay d) = (displayItems d.document).dropLast := by
      unfold toDisplay
      exact strLines_joinSep _ ll hll hllne hmemll hgood
    have hnodup0 : ((Ini.new.document.map Prod.fst)
        ++ d.document.map Prod.fst).Nodup := by
      show (([] : List Chars) ++ d.document.map Prod.fst).Nodup
      rw [List.nil_append]
      exact hnodup
    obtain ⟨nm, hok⟩ := parse_sections_fold d.document Ini.new 0 hnodup0 hWF
    have hsplit : displayItems d.document
        = (displayItems d.document).dropLast ++ [[]] := by
      have hlast := getLast?_displayItems d.document hdocne
      have hne := displayItems_ne_nil d.document hdocne
      rw [List.getLast?_eq_getLast _ hne] at hlast
      conv_lhs => rw [← List.dropLast_append_getLast hne]
      rw [Option.some_inj.mp hlast]
    rw [hsplit, parseLinesFrom_append] at hok
    show (parseLinesFrom Ini.new 0 (strLines (toDisplay d))).toOption.map
      (fun r => r.document) = some d.document
    rw [hA]
    cases hdl : parseLinesFrom Ini.new 0 ((displayItems d.document).dropLast) with
    | error e =>
      rw [hdl] at hok
      exact Except.noConfusion hok
    | ok s =>
      rw [hdl] at hok
      have hs : s = (⟨Ini.new.document ++ d.document, nm⟩ : Ini) := by
        have hok' : Except.ok (ε := ParseError) s
            = Except.ok (⟨Ini.new.document ++ d.document, nm⟩ : Ini) := hok
        injection hok'
      rw [hs]
      show some ((⟨Ini.new.document ++ d.document, nm⟩ : Ini).document)
        = some d.document
      rw [show (⟨Ini.new.document ++ d.document, nm⟩ : Ini).document
        = Ini.new.document ++ d.document from rfl]
      rw [show Ini.new.document ++ d.document = d.document from
        List.nil_append d.document]

/-- Witness for C2 (amended) on a concrete two-section builder document. -/
theorem c2_roundtrip_witness :
    (Ini.parse (toDisplay (((((Ini.new.section_ "one".toList).item
          "a".toList "1".toList).item "b".toList "2".toList).section_
          "two".toList).item "c".toList "3".toList))).toOption.map
        (fun r => r.document)
      = some ((((((Ini.new.section_ "one".toList).item
          "a".toList "1".toList).item "b".toList "2".toList).section_
          "two".toList).item "c".toList "3".toList)).document :=
  c2_roundtrip _ (by decide)

end Tini
